import Mathlib

/-!
# Verification of the `matrix-mul` matrix multiplication core

A shallow embedding of the Rust program in `src/main.rs` (struct `Matrix`
with `new`, `get`, `set`, `multiply`, `multiply_par`, `from_string`, the
`Display` impl and the `PartialEq` impl), together with theorems settling
the specification's claims about it.

Conventions of the embedding:
* A Rust panic (failed `assert_eq!`, out-of-bounds `Vec` index, failed
  `parse`, `panic!`) is modelled as `none` / an error value.
* Matrix elements are kept generic in a type `α` with explicit addition,
  multiplication and zero, so theorems about the *shape* of the
  computation (accumulation order, task decomposition) hold for any
  element arithmetic, in particular for IEEE-754 doubles.  Where a claim
  genuinely depends on `f64` semantics (equality of `±0.0`, `NaN`,
  multiplication by `0.0`/`1.0`) we use the faithful model `F64` below.
* The parallel multiplier spawns one task per output cell and lets the
  pool execute them in an arbitrary order; the embedding makes that order
  an explicit `sched : List (ℕ × ℕ)` parameter and theorems quantify over
  every permutation of the spawned task list.
-/

/-- The Rust struct `Matrix { rows, cols, data }`; `data` is the flat
row-major buffer (`Vec<f64>`, here `List α`). -/
structure Mat (α : Type) where
  rows : ℕ
  cols : ℕ
  data : List α
  deriving Repr, DecidableEq

namespace Mat

variable {α : Type}

/-- The row-major length invariant `data.len() == rows * cols` stated by
the spec's data model.  `Matrix::new` does NOT enforce it (see C6). -/
def Wf (m : Mat α) : Prop := m.data.length = m.rows * m.cols

instance (m : Mat α) : Decidable m.Wf := by unfold Wf; infer_instance

/-- `Matrix::new(rows, cols, vec)`: builds the struct from its fields.
The source performs no validation whatsoever. -/
def new (rows cols : ℕ) (data : List α) : Mat α :=
  { rows := rows, cols := cols, data := data }

/-- `Matrix::get`: reads `self.data[row * self.cols + col]`.  A Rust
`Vec` index out of bounds panics, hence the `Option`. -/
def get? (m : Mat α) (row col : ℕ) : Option α :=
  m.data[row * m.cols + col]?

/-- Total variant of `Matrix::get` used inside the multipliers, where
every access is in bounds (proved where needed): out-of-bounds reads
return the default `z` instead of panicking. -/
def getD (m : Mat α) (row col : ℕ) (z : α) : α :=
  m.data.getD (row * m.cols + col) z

/-- Total variant of `Matrix::set`: writes `self.data[row*cols+col]`,
a no-op when out of bounds (`List.set` semantics).  The multipliers only
ever write in bounds. -/
def set (m : Mat α) (row col : ℕ) (v : α) : Mat α :=
  { m with data := m.data.set (row * m.cols + col) v }

/-- `Matrix::set` with the Rust panic made explicit: `none` iff the flat
index `row*cols+col` falls outside the buffer. -/
def set? (m : Mat α) (row col : ℕ) (v : α) : Option (Mat α) :=
  if row * m.cols + col < m.data.length then some (m.set row col v) else none



end Mat

section Multipliers

variable {α : Type} (addf mulf : α → α → α) (z : α)

/-- The inner `for k in 0..self.cols { sum += self.get(i,k) * other.get(k,j) }`
loop of both multipliers: a single accumulator initialised to `z` (`0.0`),
summed strictly in ascending `k` order. -/
def dotProd (a b : Mat α) (i j : ℕ) : α :=
  (List.range a.cols).foldl (fun sum k => addf sum (mulf (a.getD i k z) (b.getD k j z))) z

/-- The pre-zeroed result buffer `Matrix::new(rows, cols, vec![0.0; rows*cols])`. -/
def zeroMat (rows cols : ℕ) : Mat α :=
  Mat.new rows cols (List.replicate (rows * cols) z)

/-- The list of output cells `(i, j)` in the order both multipliers
enumerate them (`for i in 0..self.rows { for j in 0..other.cols }`);
in `multiply_par` each of these becomes one spawned task. -/
def tasks (a b : Mat α) : List (ℕ × ℕ) :=
  (List.range a.rows).flatMap (fun i => (List.range b.cols).map (fun j => (i, j)))

/-- Executing a list of cell tasks in the given order: each task computes
its dot product and writes it into its own slot of the shared buffer. -/
def runSched (a b : Mat α) (sched : List (ℕ × ℕ)) : Mat α :=
  sched.foldl (fun m ij => m.set ij.1 ij.2 (dotProd addf mulf z a b ij.1 ij.2))
    (zeroMat z a.rows b.cols)

/-- `Matrix::multiply`: `assert_eq!(self.cols, other.rows)` (panic modelled
as `none`), then the sequential triple loop writing each cell of the
pre-zeroed result. -/
def multiply (a b : Mat α) : Option (Mat α) :=
  if a.cols = b.rows then
    some ((List.range a.rows).foldl
      (fun m i => (List.range b.cols).foldl
        (fun m' j => m'.set i j (dotProd addf mulf z a b i j)) m)
      (zeroMat z a.rows b.cols))
  else none

/-- `Matrix::multiply_par`: same dimension assert, then one task per output
cell is spawned into the pool; `sched` is the order in which the pool
happens to execute them (any permutation of `tasks a b`). -/
def multiplyPar (a b : Mat α) (sched : List (ℕ × ℕ)) : Option (Mat α) :=
  if a.cols = b.rows then some (runSched addf mulf z a b sched) else none

/-- Modelled from the spec's result description (§4.2 together with the
§3 row-major invariant), for comparison with the code path: `rows = a.rows`,
`cols = b.cols`, and `data[n]` is the element at row `n / cols`, column
`n % cols`, each element given by the spec's dot-product formula. -/
def dotSpec (a b : Mat α) (i j : ℕ) : α :=
  (List.range a.cols).foldl (fun acc k => addf acc (mulf (a.getD i k z) (b.getD k j z))) z

/-- Modelled from the spec: the result of `multiply` as §4.2 words it,
element `(i,j) = Σ_{k} a[i,k]*b[k,j]` laid out row-major. -/
def multiplySpec (a b : Mat α) : Option (Mat α) :=
  if a.cols = b.rows then
    some ⟨a.rows, b.cols,
      (List.range (a.rows * b.cols)).map
        (fun n => dotSpec addf mulf z a b (n / b.cols) (n % b.cols))⟩
  else none

end Multipliers

/-- The flat row-major slot targeted by the task for cell `ij`. -/
def cellIdx (C : ℕ) (ij : ℕ × ℕ) : ℕ := ij.1 * C + ij.2

/-!
## A model of IEEE-754 binary64 values

The claims about `PartialEq` (C5) and the identity law (C9) depend on
genuine `f64` semantics: `+0.0` and `-0.0` have different bit patterns
but compare `==`; `NaN` never compares equal, even to itself;
`0.0 * x` of a finite `x` is a signed zero, while `0.0 * ∞` and
`0.0 * NaN` are `NaN`.  `F64` models a double exactly by its value
class; nonzero finite values carry their exact rational value (every
non-NaN double other than the two zeros has a unique bit pattern, so
structural equality of `F64` is bit-pattern equality up to NaN
payloads).  Rounding of inexact results is kept abstract as a
parameter `rnd`; the only fact theorems assume about it is the IEEE
guarantee that exactly representable results round to themselves.
-/

inductive F64 : Type
  | nan : F64
  | inf : Bool → F64
  | zero : Bool → F64
  | num : ℚ → F64
  deriving Repr, DecidableEq

namespace F64

/-- `+0.0`: the Rust literal `0.0` used for the accumulator and the
pre-zeroed buffers. -/
def pzero : F64 := zero false

/-- The rationals exactly representable as nonzero finite binary64
values: `m * 2^e` with `|m| < 2^53` and `e` in the binary64 range. -/
def Representable (q : ℚ) : Prop :=
  q ≠ 0 ∧ ∃ m e : ℤ, q = (m : ℚ) * (2 : ℚ) ^ e ∧ m.natAbs < 2 ^ 53 ∧ -1074 ≤ e ∧ e ≤ 971

/-- IEEE-754 `==` on doubles (what Rust `f64 == f64` performs): `NaN`
equals nothing, the two zeros are equal, every other value equals
exactly itself. -/
def ieeeEq : F64 → F64 → Bool
  | nan, _ => false
  | _, nan => false
  | inf s, inf t => s == t
  | inf _, _ => false
  | _, inf _ => false
  | zero _, zero _ => true
  | zero _, num q => q == 0
  | num q, zero _ => q == 0
  | num q, num r => q == r

/-- IEEE-754 multiplication.  All special-value cases are fixed by the
standard; a product of nonzero finite values is the correctly rounded
exact product, delegated to `rnd`. -/
def mulF (rnd : ℚ → F64) : F64 → F64 → F64
  | nan, _ => nan
  | _, nan => nan
  | inf s, inf t => inf (Bool.xor s t)
  | inf _, zero _ => nan
  | zero _, inf _ => nan
  | inf s, num q => inf (Bool.xor s (decide (q < 0)))
  | num q, inf t => inf (Bool.xor (decide (q < 0)) t)
  | zero s, zero t => zero (Bool.xor s t)
  | zero s, num q => zero (Bool.xor s (decide (q < 0)))
  | num q, zero t => zero (Bool.xor (decide (q < 0)) t)
  | num q, num r => rnd (q * r)

/-- IEEE-754 addition (round-to-nearest-even).  Special values fixed by
the standard; `x + (-x) = +0.0` in this rounding mode; a nonzero exact
sum of finite values is correctly rounded, delegated to `rnd`. -/
def addF (rnd : ℚ → F64) : F64 → F64 → F64
  | nan, _ => nan
  | _, nan => nan
  | inf s, inf t => if s = t then inf s else nan
  | inf s, zero _ => inf s
  | inf s, num _ => inf s
  | zero _, inf t => inf t
  | num _, inf t => inf t
  | zero s, zero t => zero (s && t)
  | zero _, num q => num q
  | num q, zero _ => num q
  | num q, num r => if q + r = 0 then zero false else rnd (q + r)

/-- A double that is finite (neither `NaN` nor `±∞`) and, when nonzero,
carries an exactly representable value — i.e. a well-formed finite
binary64 datum. -/
def FiniteRepr : F64 → Prop
  | zero _ => True
  | num q => Representable q
  | _ => False

end F64

/-!
## The `PartialEq for Matrix` implementation

`eq` first compares dimensions, then walks `self.data` by index; the
read `other.data[i]` panics (modelled `none`) if `other.data` is
shorter, and elements are compared with `f64` `==`/`!=`.
-/

/-- The element loop of `PartialEq::eq`: compares `self.data` pointwise
against `other.data`, panicking (`none`) if `other.data` runs out first,
returning `false` at the first element mismatch. -/
def eqLoop {α : Type} (beq : α → α → Bool) : List α → List α → Option Bool
  | [], _ => some true
  | _ :: _, [] => none
  | x :: xs, y :: ys => if beq x y then eqLoop beq xs ys else some false

/-- `impl PartialEq for Matrix { fn eq ... }`, generic in the element
comparison. -/
def matEqBy {α : Type} (beq : α → α → Bool) (a b : Mat α) : Option Bool :=
  if a.rows = b.rows ∧ a.cols = b.cols then eqLoop beq a.data b.data else some false

/-- `PartialEq for Matrix` at the program's element type: `f64` with
IEEE `==`. -/
def matEqF (a b : Mat F64) : Option Bool := matEqBy F64.ieeeEq a b

/-!
## The identity matrix and the identity law (C9)
-/

/-- The `n×n` identity matrix value used by the spec's identity-law
property: ones on the diagonal, `+0.0` elsewhere, row-major. -/
def identM (n : ℕ) : Mat F64 :=
  ⟨n, n, (List.range (n * n)).map (fun t => if t / n = t % n then F64.num 1 else F64.pzero)⟩

/-- Matching up to the sign of zero: the relationship between a computed
cell and the original element that survives the dot-product loop. -/
def znEqv : F64 → F64 → Prop
  | F64.zero _, F64.zero _ => True
  | F64.num q, F64.num r => q = r
  | _, _ => False

/-!
## The textual format: `Display for Matrix` and `Matrix::from_string`

Strings are modelled as lists of characters.  `Display` writes, for each
row, every element followed by one space (`write!(f, "{} ", ..)`), then a
newline; `from_string` iterates `s.lines()`, splits each line on a single
space, fixes the column count from the first line, and parses every token
as `f64`.  Element rendering/parsing is kept as parameters `showNum` /
`parseNum`, since the claims settled here depend only on structural facts
about them (Rust's float grammar rejects the empty string).
-/

/-- Rust `str::split(\" \")` for the single-character separator: splits at
every occurrence keeping empty substrings; splitting the empty string
yields one empty token, so the result is never empty. -/
def splitOnChar (sep : Char) : List Char → List (List Char)
  | [] => [[]]
  | c :: rest =>
      let r := splitOnChar sep rest
      if c = sep then [] :: r
      else
        match r with
        | [] => [[c]]
        | t :: ts => (c :: t) :: ts

/-- Rust `str::lines()` strips one trailing carriage return per line. -/
def dropCR (l : List Char) : List Char :=
  if l.getLast? = some '\r' then l.dropLast else l

/-- Rust `str::lines()`: split on newline, a final trailing newline does
not produce a final empty line. -/
def rustLines (s : List Char) : List (List Char) :=
  let parts := splitOnChar '\n' s
  (if parts.getLast? = some [] then parts.dropLast else parts).map dropCR

/-- The token loop of `Matrix::from_string`: parse each token in order,
panicking (`none`) at the first token that is not a float literal. -/
def parseTokens {α : Type} (parseNum : List Char → Option α) :
    List (List Char) → Option (List α)
  | [] => some []
  | t :: ts =>
      match parseNum t with
      | none => none
      | some v =>
          match parseTokens parseNum ts with
          | none => none
          | some vs => some (v :: vs)

/-- The loop body of `Matrix::from_string` over the lines, carrying the
mutable `rows`, `cols`, `data` state.  `none` models the two panics
(`"Cannot read matrix"` on a ragged row, `"Not a number"` on a token that
fails float parsing). -/
def parseLines {α : Type} (parseNum : List Char → Option α) :
    List (List Char) → ℕ → ℕ → List α → Option (Mat α)
  | [], rows, cols, data => some ⟨rows, cols, data⟩
  | line :: rest, rows, cols, data =>
      let splitted := splitOnChar ' ' line
      if splitted.length = 0 then parseLines parseNum rest rows cols data
      else if cols ≠ 0 ∧ cols ≠ splitted.length then none
      else
        match parseTokens parseNum splitted with
        | none => none
        | some nums =>
            parseLines parseNum rest (rows + 1)
              (if cols = 0 then splitted.length else cols) (data ++ nums)

/-- `Matrix::from_string`. -/
def fromString {α : Type} (parseNum : List Char → Option α) (s : List Char) : Option (Mat α) :=
  parseLines parseNum (rustLines s) 0 0 []

/-- `impl fmt::Display for Matrix`: for each row, each element is written
followed by one space, and each row ends with a newline. -/
def toText {α : Type} (showNum : α → List Char) (dflt : α) (m : Mat α) : List Char :=
  ((List.range m.rows).map (fun i =>
    (((List.range m.cols).map (fun j => showNum (m.getD i j dflt) ++ [' '])).flatten)
      ++ ['\n'])).flatten

/-!
## Theorems
-/

theorem Mat.ext_fields {α : Type} {m₁ m₂ : Mat α} (hr : m₁.rows = m₂.rows)
    (hc : m₁.cols = m₂.cols) (hd : m₁.data = m₂.data) : m₁ = m₂ := by
  cases m₁; cases m₂
  cases hr; cases hc; cases hd
  rfl

@[simp] theorem Mat.set_rows {α : Type} (m : Mat α) (r c : ℕ) (v : α) :
    (m.set r c v).rows = m.rows := rfl

@[simp] theorem Mat.set_cols {α : Type} (m : Mat α) (r c : ℕ) (v : α) :
    (m.set r c v).cols = m.cols := rfl

@[simp] theorem Mat.set_data {α : Type} (m : Mat α) (r c : ℕ) (v : α) :
    (m.set r c v).data = m.data.set (r * m.cols + c) v := rfl


section SchedLemmas

variable {α : Type} (addf mulf : α → α → α) (z : α)



theorem foldl_set_length {β : Type} (g : β → ℕ) (f : β → α) (l : List β) :
    ∀ init : List α, (l.foldl (fun d x => d.set (g x) (f x)) init).length = init.length := by
  induction l with
  | nil => intro init; rfl
  | cons x xs ih =>
      intro init
      simp only [List.foldl_cons]
      rw [ih (init.set (g x) (f x)), List.length_set]

theorem foldl_set_getElem?_not_mem {β : Type} (g : β → ℕ) (f : β → α) (l : List β) :
    ∀ (init : List α) (n : ℕ), (∀ x ∈ l, g x ≠ n) →
      (l.foldl (fun d x => d.set (g x) (f x)) init)[n]? = init[n]? := by
  induction l with
  | nil => intro init n _; rfl
  | cons x xs ih =>
      intro init n h
      simp only [List.foldl_cons]
      rw [ih _ n (fun y hy => h y (List.mem_cons_of_mem _ hy))]
      exact List.getElem?_set_ne (h x (List.mem_cons_self x xs))

theorem foldl_set_getElem?_last {β : Type} (g : β → ℕ) (f : β → α) (l₁ l₂ : List β) (x : β)
    (init : List α) (hlen : g x < init.length) (h₂ : ∀ y ∈ l₂, g y ≠ g x) :
    ((l₁ ++ x :: l₂).foldl (fun d y => d.set (g y) (f y)) init)[g x]? = some (f x) := by
  rw [List.foldl_append, List.foldl_cons,
    foldl_set_getElem?_not_mem g f l₂ _ _ h₂, List.getElem?_set_self',
    List.getElem?_eq_getElem (by rw [foldl_set_length]; exact hlen)]
  rfl

/-- Writing cells into a matrix only touches `data`; rows, cols and the
flat index function are invariant through the fold. -/
theorem foldl_set_mat {w : ℕ × ℕ → α} :
    ∀ (sched : List (ℕ × ℕ)) (m : Mat α),
      sched.foldl (fun acc ij => acc.set ij.1 ij.2 (w ij)) m
        = ⟨m.rows, m.cols,
            sched.foldl (fun d ij => d.set (cellIdx m.cols ij) (w ij)) m.data⟩
  | [], _ => rfl
  | ij :: rest, m => by
      simp only [List.foldl_cons]
      rw [foldl_set_mat rest (m.set ij.1 ij.2 (w ij))]
      rfl

theorem runSched_eq (a b : Mat α) (sched : List (ℕ × ℕ)) :
    runSched addf mulf z a b sched
      = ⟨a.rows, b.cols,
          sched.foldl
            (fun d ij => d.set (cellIdx b.cols ij) (dotProd addf mulf z a b ij.1 ij.2))
            (List.replicate (a.rows * b.cols) z)⟩ := by
  unfold runSched zeroMat Mat.new
  exact foldl_set_mat sched _

theorem mem_tasks {a b : Mat α} {ij : ℕ × ℕ} :
    ij ∈ tasks a b ↔ ij.1 < a.rows ∧ ij.2 < b.cols := by
  obtain ⟨i, j⟩ := ij
  simp [tasks]

theorem tasks_nodup (a b : Mat α) : (tasks a b).Nodup := by
  unfold tasks
  rw [List.nodup_flatMap]
  constructor
  · intro i _
    exact (List.nodup_range _).map (fun j j' h => (Prod.mk.injEq ..).mp h |>.2)
  · refine (List.pairwise_iff_forall_sublist).mpr ?_
    intro i i' hsub
    have hne : i ≠ i' := by
      intro h
      subst h
      exact (List.nodup_iff_sublist.mp (List.nodup_range _)) i hsub
    intro p hp hp'
    simp only [List.mem_map] at hp hp'
    obtain ⟨j, _, rfl⟩ := hp
    obtain ⟨j', _, h⟩ := hp'
    exact hne ((Prod.mk.injEq ..).mp h.symm |>.1)

theorem cellIdx_inj {C : ℕ} {ij ij' : ℕ × ℕ} (h2 : ij.2 < C) (h2' : ij'.2 < C)
    (h : cellIdx C ij = cellIdx C ij') : ij = ij' := by
  obtain ⟨i, j⟩ := ij
  obtain ⟨i', j'⟩ := ij'
  simp only [cellIdx] at h h2 h2'
  have hC : 0 < C := Nat.lt_of_le_of_lt (Nat.zero_le _) h2
  have hi : i = i' := by
    have d1 : (i * C + j) / C = i := by
      rw [Nat.mul_comm, Nat.mul_add_div hC, Nat.div_eq_of_lt h2, Nat.add_zero]
    have d2 : (i' * C + j') / C = i' := by
      rw [Nat.mul_comm, Nat.mul_add_div hC, Nat.div_eq_of_lt h2', Nat.add_zero]
    rw [← d1, ← d2, h]
  subst hi
  have hj : j = j' := Nat.add_left_cancel h
  rw [hj]

theorem cellIdx_lt {R C i j : ℕ} (hi : i < R) (hj : j < C) : cellIdx C (i, j) < R * C :=
  calc cellIdx C (i, j) = i * C + j := rfl
    _ < i * C + C := Nat.add_lt_add_left hj _
    _ = (i + 1) * C := (Nat.succ_mul i C).symm
    _ ≤ R * C := Nat.mul_le_mul_right C hi

/-- Any execution order that is a permutation of the spawned tasks leaves
`dotProd a b i j` in slot `(i, j)`:  the last (indeed only) write to that
slot is the task for `(i, j)` itself, by the disjoint-slot invariant. -/
theorem runSched_getElem? (a b : Mat α) {sched : List (ℕ × ℕ)}
    (hperm : sched.Perm (tasks a b)) {i j : ℕ} (hi : i < a.rows) (hj : j < b.cols) :
    (runSched addf mulf z a b sched).data[cellIdx b.cols (i, j)]?
      = some (dotProd addf mulf z a b i j) := by
  rw [runSched_eq]
  have hmem : (i, j) ∈ sched := hperm.mem_iff.mpr (mem_tasks.mpr ⟨hi, hj⟩)
  obtain ⟨l₁, l₂, rfl⟩ := List.append_of_mem hmem
  have hnd : (l₁ ++ (i, j) :: l₂).Nodup := hperm.nodup_iff.mpr (tasks_nodup a b)
  have hlast :
      ((l₁ ++ (i, j) :: l₂).foldl
        (fun d ij => d.set (cellIdx b.cols ij) (dotProd addf mulf z a b ij.1 ij.2))
        (List.replicate (a.rows * b.cols) z))[cellIdx b.cols (i, j)]?
        = some (dotProd addf mulf z a b (i, j).1 (i, j).2) := by
    apply foldl_set_getElem?_last (cellIdx b.cols)
      (fun ij => dotProd addf mulf z a b ij.1 ij.2) l₁ l₂ (i, j)
    · rw [List.length_replicate]
      exact cellIdx_lt hi hj
    · intro y hy hcell
      have hytasks : y ∈ tasks a b :=
        hperm.subset (by simp [hy])
      have : y = (i, j) := cellIdx_inj (mem_tasks.mp hytasks).2 hj hcell
      subst this
      have hsub : ((i, j) :: l₂).Nodup :=
        (List.sublist_append_right l₁ _).nodup hnd
      exact (List.nodup_cons.mp hsub).1 hy
  exact hlast

theorem runSched_data_length (a b : Mat α) (sched : List (ℕ × ℕ)) :
    (runSched addf mulf z a b sched).data.length = a.rows * b.cols := by
  rw [runSched_eq]
  simp only
  rw [foldl_set_length, List.length_replicate]

/-- Two schedules that are permutations of the task list produce identical
result matrices: one write per distinct slot. -/
theorem runSched_perm_eq (a b : Mat α) {s₁ s₂ : List (ℕ × ℕ)}
    (h₁ : s₁.Perm (tasks a b)) (h₂ : s₂.Perm (tasks a b)) :
    runSched addf mulf z a b s₁ = runSched addf mulf z a b s₂ := by
  have hrows : ∀ s, (runSched addf mulf z a b s).rows = a.rows := by
    intro s; rw [runSched_eq]
  have hcols : ∀ s, (runSched addf mulf z a b s).cols = b.cols := by
    intro s; rw [runSched_eq]
  have hdata : (runSched addf mulf z a b s₁).data = (runSched addf mulf z a b s₂).data := by
    apply List.ext_getElem?
    intro n
    by_cases hn : n < a.rows * b.cols
    · have hC : 0 < b.cols := by
        rcases Nat.eq_zero_or_pos b.cols with h0 | h0
        · rw [h0, Nat.mul_zero] at hn; exact absurd hn (Nat.not_lt_zero n)
        · exact h0
      have hj : n % b.cols < b.cols := Nat.mod_lt n hC
      have hi : n / b.cols < a.rows := (Nat.div_lt_iff_lt_mul hC).mpr hn
      have hcell : cellIdx b.cols (n / b.cols, n % b.cols) = n := by
        show n / b.cols * b.cols + n % b.cols = n
        rw [Nat.mul_comm]
        exact Nat.div_add_mod n b.cols
      rw [← hcell, runSched_getElem? addf mulf z a b h₁ hi hj,
        runSched_getElem? addf mulf z a b h₂ hi hj]
    · rw [List.getElem?_eq_none, List.getElem?_eq_none]
      · rw [runSched_data_length]; exact Nat.le_of_not_lt hn
      · rw [runSched_data_length]; exact Nat.le_of_not_lt hn
  exact Mat.ext_fields ((hrows s₁).trans (hrows s₂).symm)
    ((hcols s₁).trans (hcols s₂).symm) hdata

theorem foldl_flatMap {β γ δ : Type} (f : β → List γ) (g : δ → γ → δ) :
    ∀ (l : List β) (init : δ),
      (l.flatMap f).foldl g init = l.foldl (fun acc x => (f x).foldl g acc) init
  | [], _ => rfl
  | x :: xs, init => by
      rw [List.flatMap_cons, List.foldl_append, foldl_flatMap f g xs, List.foldl_cons]

/-- The sequential nested loops of `Matrix::multiply` execute exactly the
task list in its spawn order. -/
theorem multiply_eq_runSched (a b : Mat α) (h : a.cols = b.rows) :
    multiply addf mulf z a b = some (runSched addf mulf z a b (tasks a b)) := by
  unfold multiply runSched tasks
  rw [if_pos h, foldl_flatMap]
  simp only [List.foldl_map]

theorem multiply_eq_multiplyPar_tasks (a b : Mat α) :
    multiply addf mulf z a b = multiplyPar addf mulf z a b (tasks a b) := by
  by_cases h : a.cols = b.rows
  · rw [multiply_eq_runSched addf mulf z a b h, multiplyPar, if_pos h]
  · rw [multiply, multiplyPar, if_neg h, if_neg h]

theorem multiplyPar_eq_multiply (a b : Mat α) {sched : List (ℕ × ℕ)}
    (hperm : sched.Perm (tasks a b)) :
    multiplyPar addf mulf z a b sched = multiply addf mulf z a b := by
  rw [multiply_eq_multiplyPar_tasks]
  unfold multiplyPar
  by_cases h : a.cols = b.rows
  · rw [if_pos h, if_pos h, runSched_perm_eq addf mulf z a b hperm (List.Perm.refl _)]
  · rw [if_neg h, if_neg h]

/-- The sequential multiplier meets the spec's result description. -/
theorem multiply_eq_multiplySpec (a b : Mat α) :
    multiply addf mulf z a b = multiplySpec addf mulf z a b := by
  by_cases h : a.cols = b.rows
  · rw [multiply_eq_runSched addf mulf z a b h, multiplySpec, if_pos h]
    congr 1
    apply Mat.ext_fields
    · rw [runSched_eq]
    · rw [runSched_eq]
    · apply List.ext_getElem?
      intro n
      by_cases hn : n < a.rows * b.cols
      · have hC : 0 < b.cols := by
          rcases Nat.eq_zero_or_pos b.cols with h0 | h0
          · rw [h0, Nat.mul_zero] at hn; exact absurd hn (Nat.not_lt_zero n)
          · exact h0
        have hj : n % b.cols < b.cols := Nat.mod_lt n hC
        have hi : n / b.cols < a.rows := (Nat.div_lt_iff_lt_mul hC).mpr hn
        have hcell : cellIdx b.cols (n / b.cols, n % b.cols) = n := by
          show n / b.cols * b.cols + n % b.cols = n
          rw [Nat.mul_comm]
          exact Nat.div_add_mod n b.cols
        conv_lhs => rw [← hcell]
        rw [runSched_getElem? addf mulf z a b (List.Perm.refl _) hi hj,
          List.getElem?_map, List.getElem?_range hn]
        rfl
      · rw [List.getElem?_eq_none, List.getElem?_eq_none]
        · rw [List.length_map, List.length_range]; exact Nat.le_of_not_lt hn
        · rw [runSched_data_length]; exact Nat.le_of_not_lt hn
  · rw [multiply, multiplySpec, if_neg h, if_neg h]

theorem multiply_isSome_iff (a b : Mat α) :
    (multiply addf mulf z a b).isSome ↔ a.cols = b.rows := by
  unfold multiply
  by_cases h : a.cols = b.rows
  · simp [h]
  · simp [h]

theorem multiplyPar_isSome_iff (a b : Mat α) (sched : List (ℕ × ℕ)) :
    (multiplyPar addf mulf z a b sched).isSome ↔ a.cols = b.rows := by
  unfold multiplyPar
  by_cases h : a.cols = b.rows
  · simp [h]
  · simp [h]

end SchedLemmas





theorem eqLoop_some_true_iff {α : Type} (beq : α → α → Bool) :
    ∀ xs ys : List α, xs.length = ys.length →
      (eqLoop beq xs ys = some true ↔ List.Forall₂ (fun x y => beq x y = true) xs ys)
  | [], [], _ => by
      constructor
      · intro _; exact List.Forall₂.nil
      · intro _; rfl
  | [], _ :: _, h => by simp at h
  | _ :: _, [], h => by simp at h
  | x :: xs, y :: ys, h => by
      have h' : xs.length = ys.length := by
        simpa using h
      constructor
      · intro heq
        by_cases hb : beq x y
        · rw [eqLoop, if_pos hb] at heq
          exact List.Forall₂.cons hb ((eqLoop_some_true_iff beq xs ys h').mp heq)
        · rw [eqLoop, if_neg hb] at heq
          simp at heq
      · intro hf
        obtain ⟨hb, hrest⟩ := List.forall₂_cons.mp hf
        rw [eqLoop, if_pos hb]
        exact (eqLoop_some_true_iff beq xs ys h').mpr hrest

theorem eqLoop_isSome {α : Type} (beq : α → α → Bool) :
    ∀ xs ys : List α, xs.length ≤ ys.length → (eqLoop beq xs ys).isSome
  | [], _, _ => rfl
  | _ :: _, [], h => by simp at h
  | x :: xs, y :: ys, h => by
      have h' : xs.length ≤ ys.length := by simpa using h
      by_cases hb : beq x y
      · rw [eqLoop, if_pos hb]
        exact eqLoop_isSome beq xs ys h'
      · rw [eqLoop, if_neg hb]
        rfl

/-- The code's matrix equality, characterised on length-invariant
matrices: `some true` exactly when dimensions agree and elements are
pairwise `beq`-equal. -/
theorem matEqBy_some_true_iff {α : Type} (beq : α → α → Bool) (a b : Mat α)
    (hwa : a.Wf) (hwb : b.Wf) :
    matEqBy beq a b = some true ↔
      a.rows = b.rows ∧ a.cols = b.cols ∧
        List.Forall₂ (fun x y => beq x y = true) a.data b.data := by
  unfold matEqBy
  by_cases h : a.rows = b.rows ∧ a.cols = b.cols
  · rw [if_pos h]
    have hlen : a.data.length = b.data.length := by
      rw [hwa, hwb, h.1, h.2]
    rw [eqLoop_some_true_iff beq a.data b.data hlen]
    constructor
    · intro hf; exact ⟨h.1, h.2, hf⟩
    · intro hf; exact hf.2.2
  · rw [if_neg h]
    constructor
    · intro hfalse; simp at hfalse
    · intro hf; exact absurd ⟨hf.1, hf.2.1⟩ h



theorem identM_wf (n : ℕ) : (identM n).Wf := by
  unfold identM Mat.Wf
  simp

theorem Mat.getD_mem {α : Type} {m : Mat α} (z : α) (hw : m.Wf) {r c : ℕ}
    (hr : r < m.rows) (hc : c < m.cols) : m.getD r c z ∈ m.data := by
  have hidx : r * m.cols + c < m.data.length := by
    rw [hw]; exact cellIdx_lt hr hc
  unfold Mat.getD
  rw [List.getD_eq_getElem?_getD, List.getElem?_eq_getElem hidx]
  exact List.getElem_mem hidx

theorem identM_getD {n i k : ℕ} (hi : i < n) (hk : k < n) :
    (identM n).getD i k F64.pzero = if i = k then F64.num 1 else F64.pzero := by
  have hn : 0 < n := Nat.lt_of_le_of_lt (Nat.zero_le _) hi
  have hidx : i * n + k < n * n := cellIdx_lt hi hk
  show (List.getD (List.map _ (List.range (n * n))) (i * n + k) F64.pzero) = _
  rw [List.getD_eq_getElem?_getD, List.getElem?_map, List.getElem?_range hidx]
  have hdiv : (i * n + k) / n = i := by
    rw [Nat.mul_comm, Nat.mul_add_div hn, Nat.div_eq_of_lt hk, Nat.add_zero]
  have hmod : (i * n + k) % n = k := by
    rw [Nat.add_comm, Nat.add_mul_mod_self_right, Nat.mod_eq_of_lt hk]
  simp only [Option.map_some', Option.getD_some, hdiv, hmod]



theorem ieeeEq_of_znEqv : ∀ {a x : F64}, znEqv a x → F64.ieeeEq a x = true := by
  intro a x h
  cases a with
  | zero s =>
      cases x with
      | zero t => rfl
      | nan => exact h.elim
      | inf t => exact h.elim
      | num q => exact h.elim
  | num q =>
      cases x with
      | num r =>
          have hqr : q = r := h
          show (q == r) = true
          rw [hqr]
          exact beq_self_eq_true r
      | nan => exact h.elim
      | inf t => exact h.elim
      | zero t => exact h.elim
  | nan => exact h.elim
  | inf s => exact h.elim

section IdentityLaw

variable (rnd : ℚ → F64)

theorem addF_zero_zero (s t : Bool) :
    F64.addF rnd (F64.zero s) (F64.zero t) = F64.zero (s && t) := rfl

theorem addF_zero_num (s : Bool) (q : ℚ) :
    F64.addF rnd (F64.zero s) (F64.num q) = F64.num q := rfl

theorem mulF_zero_left {y : F64} (s : Bool) (hy : F64.FiniteRepr y) :
    ∃ u, F64.mulF rnd (F64.zero s) y = F64.zero u := by
  cases y with
  | zero t => exact ⟨Bool.xor s t, rfl⟩
  | num q => exact ⟨Bool.xor s (decide (q < 0)), rfl⟩
  | nan => exact hy.elim
  | inf t => exact hy.elim

theorem mulF_zero_right {y : F64} (t : Bool) (hy : F64.FiniteRepr y) :
    ∃ u, F64.mulF rnd y (F64.zero t) = F64.zero u := by
  cases y with
  | zero s => exact ⟨Bool.xor s t, rfl⟩
  | num q => exact ⟨Bool.xor (decide (q < 0)) t, rfl⟩
  | nan => exact hy.elim
  | inf s => exact hy.elim

theorem mulF_one_left (hrnd : ∀ q, F64.Representable q → rnd q = F64.num q)
    {y : F64} (hy : F64.FiniteRepr y) : F64.mulF rnd (F64.num 1) y = y := by
  cases y with
  | zero t =>
      show F64.zero (Bool.xor (decide ((1 : ℚ) < 0)) t) = F64.zero t
      norm_num
  | num q =>
      show rnd (1 * q) = F64.num q
      rw [one_mul]
      exact hrnd q hy
  | nan => exact hy.elim
  | inf t => exact hy.elim

theorem mulF_one_right (hrnd : ∀ q, F64.Representable q → rnd q = F64.num q)
    {y : F64} (hy : F64.FiniteRepr y) : F64.mulF rnd y (F64.num 1) = y := by
  cases y with
  | zero s =>
      show F64.zero (Bool.xor s (decide ((1 : ℚ) < 0))) = F64.zero s
      norm_num
  | num q =>
      show rnd (q * 1) = F64.num q
      rw [mul_one]
      exact hrnd q hy
  | nan => exact hy.elim
  | inf s => exact hy.elim

theorem addF_zero_right_znEqv {acc x : F64} (u : Bool) (h : znEqv acc x) :
    znEqv (F64.addF rnd acc (F64.zero u)) x := by
  cases acc with
  | zero s =>
      cases x with
      | zero t => exact trivial
      | num q => exact h.elim
      | nan => exact h.elim
      | inf t => exact h.elim
  | num q =>
      cases x with
      | num r => exact h
      | zero t => exact h.elim
      | nan => exact h.elim
      | inf t => exact h.elim
  | nan => exact h.elim
  | inf s => exact h.elim

theorem foldl_add_zeros (terms : ℕ → F64) :
    ∀ (ks : List ℕ) (s : Bool), (∀ k ∈ ks, ∃ u, terms k = F64.zero u) →
      ∃ s', ks.foldl (fun acc k => F64.addF rnd acc (terms k)) (F64.zero s) = F64.zero s'
  | [], s, _ => ⟨s, rfl⟩
  | k :: ks, s, h => by
      obtain ⟨u, hu⟩ := h k (List.mem_cons_self k ks)
      rw [List.foldl_cons, hu, addF_zero_zero]
      exact foldl_add_zeros terms ks (s && u) (fun k' hk' => h k' (List.mem_cons_of_mem _ hk'))

theorem foldl_add_zeros_keep (terms : ℕ → F64) (x : F64) :
    ∀ (ks : List ℕ) (acc : F64), znEqv acc x → (∀ k ∈ ks, ∃ u, terms k = F64.zero u) →
      znEqv (ks.foldl (fun acc k => F64.addF rnd acc (terms k)) acc) x
  | [], _, hacc, _ => hacc
  | k :: ks, acc, hacc, h => by
      obtain ⟨u, hu⟩ := h k (List.mem_cons_self k ks)
      rw [List.foldl_cons, hu]
      exact foldl_add_zeros_keep terms x ks _ (addF_zero_right_znEqv rnd u hacc)
        (fun k' hk' => h k' (List.mem_cons_of_mem _ hk'))

/-- The dot product of a row that is zero everywhere except a single
pivot, where the term is the matrix element `x` itself, accumulates to
`x` (up to the sign of zero), whatever the rounding behavior: every
operation performed is exact. -/
theorem fold_pivot (terms : ℕ → F64) (n p : ℕ) (hp : p < n) (x : F64)
    (hzero : ∀ k, k < n → k ≠ p → ∃ u, terms k = F64.zero u)
    (hx : terms p = x) (hxfin : F64.FiniteRepr x) :
    znEqv ((List.range n).foldl (fun acc k => F64.addF rnd acc (terms k)) F64.pzero) x := by
  have h1 : (p + 1) + (n - (p + 1)) = n := by omega
  have hsplit : List.range n
      = List.range p ++ p :: List.map (fun t => (p + 1) + t) (List.range (n - (p + 1))) := by
    calc List.range n = List.range ((p + 1) + (n - (p + 1))) := by rw [h1]
      _ = List.range (p + 1) ++ List.map (fun t => (p + 1) + t) (List.range (n - (p + 1))) :=
          List.range_add _ _
      _ = (List.range p ++ [p]) ++ List.map (fun t => (p + 1) + t) (List.range (n - (p + 1))) := by
          rw [List.range_succ]
      _ = List.range p ++ p :: List.map (fun t => (p + 1) + t) (List.range (n - (p + 1))) := by
          rw [List.append_assoc]
          rfl
  rw [hsplit, List.foldl_append, List.foldl_cons]
  obtain ⟨s, hs⟩ := foldl_add_zeros rnd terms (List.range p) false (by
    intro k hk
    have hkp : k < p := List.mem_range.mp hk
    exact hzero k (Nat.lt_trans hkp hp) (Nat.ne_of_lt hkp))
  rw [show F64.pzero = F64.zero false from rfl, hs, hx]
  apply foldl_add_zeros_keep
  · cases x with
    | zero t => exact trivial
    | num q =>
        rw [addF_zero_num]
        exact rfl
    | nan => exact hxfin.elim
    | inf t => exact hxfin.elim
  · intro k hk
    simp only [List.mem_map, List.mem_range] at hk
    obtain ⟨t, ht, rfl⟩ := hk
    exact hzero _ (by omega) (by omega)

end IdentityLaw

theorem runSched_rows {α : Type} (addf mulf : α → α → α) (z : α) (a b : Mat α)
    (sched : List (ℕ × ℕ)) : (runSched addf mulf z a b sched).rows = a.rows := by
  rw [runSched_eq]

theorem runSched_cols {α : Type} (addf mulf : α → α → α) (z : α) (a b : Mat α)
    (sched : List (ℕ × ℕ)) : (runSched addf mulf z a b sched).cols = b.cols := by
  rw [runSched_eq]

theorem identity_cell_left (rnd : ℚ → F64)
    (hrnd : ∀ q, F64.Representable q → rnd q = F64.num q) {n : ℕ} {M : Mat F64}
    (hw : M.Wf) (hr : M.rows = n) (hc : M.cols = n)
    (hfin : ∀ y ∈ M.data, F64.FiniteRepr y) {i j : ℕ} (hi : i < n) (hj : j < n) :
    znEqv (dotProd (F64.addF rnd) (F64.mulF rnd) F64.pzero (identM n) M i j)
      (M.getD i j F64.pzero) := by
  have hx : F64.FiniteRepr (M.getD i j F64.pzero) :=
    hfin _ (Mat.getD_mem _ hw (by omega) (by omega))
  unfold dotProd
  show znEqv ((List.range n).foldl
    (fun sum k => F64.addF rnd sum
      (F64.mulF rnd ((identM n).getD i k F64.pzero) (M.getD k j F64.pzero))) F64.pzero) _
  apply fold_pivot rnd
    (fun k => F64.mulF rnd ((identM n).getD i k F64.pzero) (M.getD k j F64.pzero)) n i hi
  · intro k hk hkne
    have hid : (identM n).getD i k F64.pzero = F64.pzero := by
      rw [identM_getD hi hk, if_neg (fun h => hkne h.symm)]
    simp only [hid]
    exact mulF_zero_left rnd false (hfin _ (Mat.getD_mem _ hw (by omega) (by omega)))
  · have hid : (identM n).getD i i F64.pzero = F64.num 1 := by
      rw [identM_getD hi hi, if_pos rfl]
    simp only [hid]
    exact mulF_one_left rnd hrnd hx
  · exact hx

theorem identity_cell_right (rnd : ℚ → F64)
    (hrnd : ∀ q, F64.Representable q → rnd q = F64.num q) {n : ℕ} {M : Mat F64}
    (hw : M.Wf) (hr : M.rows = n) (hc : M.cols = n)
    (hfin : ∀ y ∈ M.data, F64.FiniteRepr y) {i j : ℕ} (hi : i < n) (hj : j < n) :
    znEqv (dotProd (F64.addF rnd) (F64.mulF rnd) F64.pzero M (identM n) i j)
      (M.getD i j F64.pzero) := by
  have hx : F64.FiniteRepr (M.getD i j F64.pzero) :=
    hfin _ (Mat.getD_mem _ hw (by omega) (by omega))
  unfold dotProd
  rw [hc]
  apply fold_pivot rnd
    (fun k => F64.mulF rnd (M.getD i k F64.pzero) ((identM n).getD k j F64.pzero)) n j hj
  · intro k hk hkne
    have hid : (identM n).getD k j F64.pzero = F64.pzero := by
      rw [identM_getD hk hj, if_neg hkne]
    simp only [hid]
    exact mulF_zero_right rnd false (hfin _ (Mat.getD_mem _ hw (by omega) (by omega)))
  · have hid : (identM n).getD j j F64.pzero = F64.num 1 := by
      rw [identM_getD hj hj, if_pos rfl]
    simp only [hid]
    exact mulF_one_right rnd hrnd hx
  · exact hx

theorem matEqF_some_true_of (A M : Mat F64) (n : ℕ)
    (hAr : A.rows = n) (hAc : A.cols = n) (hAlen : A.data.length = n * n)
    (hMr : M.rows = n) (hMc : M.cols = n) (hMlen : M.data.length = n * n)
    (hcell : ∀ t (h₁ : t < A.data.length) (h₂ : t < M.data.length),
        F64.ieeeEq (A.data.get ⟨t, h₁⟩) (M.data.get ⟨t, h₂⟩) = true) :
    matEqF A M = some true := by
  unfold matEqF matEqBy
  rw [if_pos ⟨hAr.trans hMr.symm, hAc.trans hMc.symm⟩,
    eqLoop_some_true_iff _ _ _ (hAlen.trans hMlen.symm), List.forall₂_iff_get]
  exact ⟨hAlen.trans hMlen.symm, fun t h₁ h₂ => hcell t h₁ h₂⟩

/-- Helper relating a matrix element read with the flat buffer read. -/
theorem Mat.getD_eq_get {α : Type} {m : Mat α} {i j t : ℕ} (z : α)
    (hidx : i * m.cols + j = t) (h : t < m.data.length) :
    m.getD i j z = m.data.get ⟨t, h⟩ := by
  unfold Mat.getD
  rw [hidx, List.getD_eq_getElem?_getD, List.getElem?_eq_getElem h]
  rfl

/-- `multiply(I, M)` succeeds and the result compares `==` to `M`, for
any square `M` of finite representable doubles, whatever the rounding
function: every arithmetic operation performed is exact. -/
theorem identity_mul_left (n : ℕ) (M : Mat F64) (rnd : ℚ → F64)
    (hrnd : ∀ q, F64.Representable q → rnd q = F64.num q)
    (hw : M.Wf) (hr : M.rows = n) (hc : M.cols = n)
    (hfin : ∀ y ∈ M.data, F64.FiniteRepr y) :
    ∃ res, multiply (F64.addF rnd) (F64.mulF rnd) F64.pzero (identM n) M = some res ∧
      matEqF res M = some true := by
  have hdim : (identM n).cols = M.rows := by rw [hr]; rfl
  refine ⟨_, multiply_eq_runSched _ _ _ _ _ hdim, ?_⟩
  apply matEqF_some_true_of _ _ n
  · rw [runSched_rows]; rfl
  · rw [runSched_cols]; exact hc
  · rw [runSched_data_length]; show n * M.cols = n * n; rw [hc]
  · exact hr
  · exact hc
  · rw [hw, hr, hc]
  · intro t h₁ h₂
    have hlen : t < n * n := by
      rw [runSched_data_length] at h₁
      show t < n * n
      calc t < (identM n).rows * M.cols := h₁
        _ = n * n := by rw [hc]; rfl
    have hn : 0 < n := by
      rcases Nat.eq_zero_or_pos n with h0 | h0
      · rw [h0, Nat.mul_zero] at hlen; exact absurd hlen (Nat.not_lt_zero t)
      · exact h0
    have hi : t / n < n := (Nat.div_lt_iff_lt_mul hn).mpr hlen
    have hj : t % n < n := Nat.mod_lt t hn
    have hcellt : cellIdx M.cols (t / n, t % n) = t := by
      show t / n * M.cols + t % n = t
      rw [hc, Nat.mul_comm]
      exact Nat.div_add_mod t n
    have h5 : (runSched (F64.addF rnd) (F64.mulF rnd) F64.pzero (identM n) M
        (tasks (identM n) M)).data[t]?
        = some (dotProd (F64.addF rnd) (F64.mulF rnd) F64.pzero (identM n) M (t / n) (t % n)) := by
      conv_lhs => rw [← hcellt]
      exact runSched_getElem? (F64.addF rnd) (F64.mulF rnd) F64.pzero (identM n) M
        (List.Perm.refl _) hi (by rw [hc]; exact hj)
    rw [List.getElem?_eq_getElem h₁] at h5
    have h6 : (runSched (F64.addF rnd) (F64.mulF rnd) F64.pzero (identM n) M
        (tasks (identM n) M)).data.get ⟨t, h₁⟩
        = dotProd (F64.addF rnd) (F64.mulF rnd) F64.pzero (identM n) M (t / n) (t % n) := by
      have := Option.some.injEq .. ▸ h5
      exact Option.some_injective _ h5
    rw [h6, ← Mat.getD_eq_get F64.pzero (by rw [hc, Nat.mul_comm]; exact Nat.div_add_mod t n) h₂]
    exact ieeeEq_of_znEqv (identity_cell_left rnd hrnd hw hr hc hfin hi hj)

/-- `multiply(M, I)` succeeds and the result compares `==` to `M`, under
the same conditions. -/
theorem identity_mul_right (n : ℕ) (M : Mat F64) (rnd : ℚ → F64)
    (hrnd : ∀ q, F64.Representable q → rnd q = F64.num q)
    (hw : M.Wf) (hr : M.rows = n) (hc : M.cols = n)
    (hfin : ∀ y ∈ M.data, F64.FiniteRepr y) :
    ∃ res, multiply (F64.addF rnd) (F64.mulF rnd) F64.pzero M (identM n) = some res ∧
      matEqF res M = some true := by
  have hdim : M.cols = (identM n).rows := by rw [hc]; rfl
  refine ⟨_, multiply_eq_runSched _ _ _ _ _ hdim, ?_⟩
  apply matEqF_some_true_of _ _ n
  · rw [runSched_rows]; exact hr
  · rw [runSched_cols]; rfl
  · rw [runSched_data_length]; show M.rows * n = n * n; rw [hr]
  · exact hr
  · exact hc
  · rw [hw, hr, hc]
  · intro t h₁ h₂
    have hlen : t < n * n := by
      rw [runSched_data_length] at h₁
      show t < n * n
      calc t < M.rows * (identM n).cols := h₁
        _ = n * n := by rw [hr]; rfl
    have hn : 0 < n := by
      rcases Nat.eq_zero_or_pos n with h0 | h0
      · rw [h0, Nat.mul_zero] at hlen; exact absurd hlen (Nat.not_lt_zero t)
      · exact h0
    have hi : t / n < n := (Nat.div_lt_iff_lt_mul hn).mpr hlen
    have hj : t % n < n := Nat.mod_lt t hn
    have hcellt : cellIdx (identM n).cols (t / n, t % n) = t := by
      show t / n * n + t % n = t
      rw [Nat.mul_comm]
      exact Nat.div_add_mod t n
    have h5 : (runSched (F64.addF rnd) (F64.mulF rnd) F64.pzero M (identM n)
        (tasks M (identM n))).data[t]?
        = some (dotProd (F64.addF rnd) (F64.mulF rnd) F64.pzero M (identM n) (t / n) (t % n)) := by
      conv_lhs => rw [← hcellt]
      exact runSched_getElem? (F64.addF rnd) (F64.mulF rnd) F64.pzero M (identM n)
        (List.Perm.refl _) (by rw [hr]; exact hi) hj
    rw [List.getElem?_eq_getElem h₁] at h5
    have h6 : (runSched (F64.addF rnd) (F64.mulF rnd) F64.pzero M (identM n)
        (tasks M (identM n))).data.get ⟨t, h₁⟩
        = dotProd (F64.addF rnd) (F64.mulF rnd) F64.pzero M (identM n) (t / n) (t % n) :=
      Option.some_injective _ h5
    rw [h6, ← Mat.getD_eq_get F64.pzero (by rw [hc, Nat.mul_comm]; exact Nat.div_add_mod t n) h₂]
    exact ieeeEq_of_znEqv (identity_cell_right rnd hrnd hw hr hc hfin hi hj)



theorem splitOnChar_length_pos (sep : Char) : ∀ l : List Char, 1 ≤ (splitOnChar sep l).length
  | [] => Nat.le_refl 1
  | c :: rest => by
      unfold splitOnChar
      by_cases h : c = sep
      · rw [if_pos h]
        exact Nat.succ_le_succ (Nat.zero_le _)
      · rw [if_neg h]
        match splitOnChar sep rest with
        | [] => exact Nat.le_refl 1
        | t :: ts => exact Nat.succ_le_succ (Nat.zero_le _)

/-- An empty line always makes `from_string` panic: splitting it yields
the single empty token, which either violates the fixed column count or
fails float parsing — the zero-token `continue` branch can never fire. -/
theorem parseLines_blank {α : Type} (parseNum : List Char → Option α)
    (hp : parseNum [] = none) :
    ∀ (ls : List (List Char)) (rows cols : ℕ) (data : List α), [] ∈ ls →
      parseLines parseNum ls rows cols data = none
  | [], _, _, _, hmem => absurd hmem (List.not_mem_nil _)
  | line :: rest, rows, cols, data, hmem => by
      by_cases hline : line = ([] : List Char)
      · subst hline
        show parseLines parseNum ([] :: rest) rows cols data = none
        unfold parseLines
        simp only [show splitOnChar ' ' [] = [[]] from rfl]
        rw [if_neg (by simp)]
        by_cases hcols : cols ≠ 0 ∧ cols ≠ 1
        · rw [if_pos (by simpa using hcols)]
        · rw [if_neg (by simpa using hcols)]
          have htok : parseTokens parseNum [[]] = none := by
            unfold parseTokens
            rw [hp]
          simp only [htok]
      · have hrest : [] ∈ rest := by
          rcases List.mem_cons.mp hmem with h | h
          · exact absurd h.symm hline
          · exact h
        unfold parseLines
        by_cases h0 : (splitOnChar ' ' line).length = 0
        · rw [if_pos h0]
          exact parseLines_blank parseNum hp rest rows cols data hrest
        · rw [if_neg h0]
          by_cases hcols : cols ≠ 0 ∧ cols ≠ (splitOnChar ' ' line).length
          · rw [if_pos hcols]
          · rw [if_neg hcols]
            match parseTokens parseNum (splitOnChar ' ' line) with
            | none => rfl
            | some nums => exact parseLines_blank parseNum hp rest _ _ _ hrest

theorem fromString_blank_line {α : Type} (parseNum : List Char → Option α)
    (hp : parseNum [] = none) (s : List Char) (hmem : [] ∈ rustLines s) :
    fromString parseNum s = none :=
  parseLines_blank parseNum hp (rustLines s) 0 0 [] hmem

/-!
## Degenerate sizes (C8)
-/

theorem set_replicate_self {α : Type} (z : α) (n i : ℕ) :
    (List.replicate n z).set i z = List.replicate n z := by
  apply List.ext_getElem?
  intro m
  by_cases h : i = m
  · subst h
    by_cases hm : i < n
    · simp [List.getElem?_set_self', List.getElem?_replicate, hm]
    · simp [List.getElem?_set_self', List.getElem?_replicate, hm]
  · rw [List.getElem?_set_ne h]

theorem zeroMat_set_self {α : Type} (z : α) (R C i j : ℕ) :
    (zeroMat z R C : Mat α).set i j z = zeroMat z R C := by
  apply Mat.ext_fields
  · rfl
  · rfl
  · show (List.replicate (R * C) z).set (i * C + j) z = List.replicate (R * C) z
    exact set_replicate_self z (R * C) (i * C + j)

theorem dotProd_of_inner_zero {α : Type} (addf mulf : α → α → α) (z : α)
    (a b : Mat α) (h : a.cols = 0) (i j : ℕ) :
    dotProd addf mulf z a b i j = z := by
  unfold dotProd
  rw [h]
  rfl

theorem runSched_of_inner_zero {α : Type} (addf mulf : α → α → α) (z : α)
    (a b : Mat α) (h : a.cols = 0) :
    ∀ sched : List (ℕ × ℕ), runSched addf mulf z a b sched = zeroMat z a.rows b.cols := by
  intro sched
  unfold runSched
  induction sched with
  | nil => rfl
  | cons ij rest ih =>
      rw [List.foldl_cons, dotProd_of_inner_zero addf mulf z a b h,
        zeroMat_set_self]
      exact ih

theorem tasks_nil_left {α : Type} (a b : Mat α) (h : a.rows = 0) : tasks a b = [] := by
  unfold tasks
  rw [h]
  rfl

theorem tasks_nil_right {α : Type} (a b : Mat α) (h : b.cols = 0) : tasks a b = [] := by
  unfold tasks
  rw [h]
  simp

/-- On any degenerate input, every task (if any) writes `0.0`, so both
multipliers return the pre-zeroed buffer. -/
theorem degenerate_runSched {α : Type} (addf mulf : α → α → α) (z : α)
    (a b : Mat α) (hdim : a.cols = b.rows)
    (hdeg : a.rows = 0 ∨ a.cols = 0 ∨ b.rows = 0 ∨ b.cols = 0)
    {sched : List (ℕ × ℕ)} (hperm : sched.Perm (tasks a b)) :
    runSched addf mulf z a b sched = zeroMat z a.rows b.cols := by
  by_cases hin : a.cols = 0
  · exact runSched_of_inner_zero addf mulf z a b hin sched
  · have htasks : tasks a b = [] := by
      rcases hdeg with h | h | h | h
      · exact tasks_nil_left a b h
      · exact absurd h hin
      · exact absurd (hdim.trans h) hin
      · exact tasks_nil_right a b h
    have hnil : sched = [] := by
      rw [htasks] at hperm
      exact hperm.eq_nil
    rw [hnil]
    rfl

/-!
## The claims
-/

/-- C1: for every pair of matrices with `a.cols == b.rows`, and every order
in which the worker pool may execute the one-task-per-cell list,
`multiply_par(a, b)` returns a matrix bit-identical to `multiply(a, b)`:
the very same rows, cols and buffer, because each cell is written once
with the same ascending-`k` dot product in both paths. -/
theorem C1_par_bit_identical {α : Type} (addf mulf : α → α → α) (z : α)
    (a b : Mat α) (_hwa : a.Wf) (_hwb : b.Wf) (hdim : a.cols = b.rows)
    (sched : List (ℕ × ℕ)) (hperm : sched.Perm (tasks a b)) :
    ∃ res, multiply addf mulf z a b = some res ∧
      multiplyPar addf mulf z a b sched = some res := by
  refine ⟨runSched addf mulf z a b (tasks a b),
    multiply_eq_runSched addf mulf z a b hdim, ?_⟩
  rw [multiplyPar_eq_multiply addf mulf z a b hperm]
  exact multiply_eq_runSched addf mulf z a b hdim

/-- Witness for C1: the spec's literal 2×2 scenario with the four cell
tasks executed in reversed order. -/
theorem C1_witness :
    ∃ res, multiply (fun x y => x + y) (fun x y => x * y) (0 : ℤ)
        (Mat.new 2 2 [1, 2, 3, 4]) (Mat.new 2 2 [1, 2, 3, 4]) = some res ∧
      multiplyPar (fun x y => x + y) (fun x y => x * y) (0 : ℤ)
        (Mat.new 2 2 [1, 2, 3, 4]) (Mat.new 2 2 [1, 2, 3, 4])
        [(1, 1), (1, 0), (0, 1), (0, 0)] = some res :=
  C1_par_bit_identical (fun x y => x + y) (fun x y => x * y) (0 : ℤ)
    (Mat.new 2 2 [1, 2, 3, 4]) (Mat.new 2 2 [1, 2, 3, 4])
    (by decide) (by decide) rfl [(1, 1), (1, 0), (0, 1), (0, 0)] (by decide)

/-- C2: under the precondition `a.cols == b.rows`, `multiply` returns a
matrix with `rows = a.rows`, `cols = b.cols` whose element `(i, j)` is the
spec's dot product: a single accumulator initialised to `0.0`, summed over
`k` in strictly increasing order. -/
theorem C2_multiply_functional {α : Type} (addf mulf : α → α → α) (z : α)
    (a b : Mat α) (_hwa : a.Wf) (_hwb : b.Wf) (hdim : a.cols = b.rows) :
    ∃ res, multiply addf mulf z a b = some res ∧ res.rows = a.rows ∧
      res.cols = b.cols ∧ ∀ i, i < a.rows → ∀ j, j < b.cols →
        res.get? i j = some (dotSpec addf mulf z a b i j) := by
  refine ⟨runSched addf mulf z a b (tasks a b),
    multiply_eq_runSched addf mulf z a b hdim,
    runSched_rows addf mulf z a b _, runSched_cols addf mulf z a b _, ?_⟩
  intro i hi j hj
  show (runSched addf mulf z a b (tasks a b)).data[i *
    (runSched addf mulf z a b (tasks a b)).cols + j]? = _
  rw [runSched_cols addf mulf z a b (tasks a b)]
  exact runSched_getElem? addf mulf z a b (List.Perm.refl _) hi hj

/-- Witness for C2: the spec's literal scenario `[[1,2],[3,4]]²`. -/
theorem C2_witness :
    ∃ res, multiply (fun x y => x + y) (fun x y => x * y) (0 : ℤ)
        (Mat.new 2 2 [1, 2, 3, 4]) (Mat.new 2 2 [1, 2, 3, 4]) = some res ∧
      res.rows = 2 ∧ res.cols = 2 ∧ ∀ i, i < 2 → ∀ j, j < 2 →
        res.get? i j = some (dotSpec (fun x y => x + y) (fun x y => x * y) (0 : ℤ)
          (Mat.new 2 2 [1, 2, 3, 4]) (Mat.new 2 2 [1, 2, 3, 4]) i j) :=
  C2_multiply_functional (fun x y => x + y) (fun x y => x * y) (0 : ℤ)
    (Mat.new 2 2 [1, 2, 3, 4]) (Mat.new 2 2 [1, 2, 3, 4]) (by decide) (by decide) rfl

/-- C3: on length-invariant matrices, both multipliers fail (the
`assert_eq!` panic, modelled `none`) exactly when `a.cols ≠ b.rows` — no
truncated or padded result ever comes back — and with matching inner
dimensions neither raises the error.  The `Wf` hypotheses restrict the
statement to the data model's matrices: on a length-violating struct
(reachable through the unchecked `new`, see C6) the code can panic on an
out-of-bounds read even with matching dimensions. -/
theorem C3_dimension_mismatch {α : Type} (addf mulf : α → α → α) (z : α)
    (a b : Mat α) (sched : List (ℕ × ℕ)) (_hwa : a.Wf) (_hwb : b.Wf) :
    (multiply addf mulf z a b = none ↔ a.cols ≠ b.rows) ∧
      (multiplyPar addf mulf z a b sched = none ↔ a.cols ≠ b.rows) := by
  constructor
  · unfold multiply
    by_cases h : a.cols = b.rows
    · simp [h]
    · simp [h]
  · unfold multiplyPar
    by_cases h : a.cols = b.rows
    · simp [h]
    · simp [h]

/-- Witness for C3 at a 1×2 times 1×1 pair whose inner dimensions
disagree. -/
theorem C3_witness :
    (multiply (fun x y => x + y) (fun x y => x * y) (0 : ℤ)
        (Mat.new 1 2 [1, 2]) (Mat.new 1 1 [3]) = none ↔ (2 : ℕ) ≠ 1) ∧
      (multiplyPar (fun x y => x + y) (fun x y => x * y) (0 : ℤ)
        (Mat.new 1 2 [1, 2]) (Mat.new 1 1 [3]) [] = none ↔ (2 : ℕ) ≠ 1) :=
  C3_dimension_mismatch (fun x y => x + y) (fun x y => x * y) (0 : ℤ)
    (Mat.new 1 2 [1, 2]) (Mat.new 1 1 [3]) [] (by decide) (by decide)

/-- C4 (code bug): the round trip `from_text(to_text(M))` fails for the
1×1 matrix `[[5.0]]`: `Display` writes every value with a trailing space
(`"5 \n"`), `from_string` splits that line on a single space into the
tokens `["5", ""]`, and the empty token fails float parsing — a panic,
not `M`.  (`showNum`/`parseNum` here render and parse the one value
involved exactly as Rust does: `"5"` round-trips and `""` is rejected.) -/
theorem C4_roundtrip_fails :
    toText (fun x => if x = F64.num 5 then ['5'] else ['?']) F64.pzero
        (Mat.new 1 1 [F64.num 5]) = ['5', ' ', '\n'] ∧
      fromString (fun t => if t = ['5'] then some (F64.num 5) else none)
        ['5', ' ', '\n'] = none := by
  constructor
  · rfl
  · rfl

/-- C5 counterexample: `+0.0` and `-0.0` have different bit patterns yet
the code's equality accepts them, and a matrix containing `NaN` is not
equal to itself — so equality is NOT bit-for-bit. -/
theorem C5_counterexample :
    matEqF (Mat.new 1 1 [F64.zero false]) (Mat.new 1 1 [F64.zero true]) = some true ∧
      (Mat.new 1 1 [F64.zero false] : Mat F64).data ≠ (Mat.new 1 1 [F64.zero true]).data ∧
      matEqF (Mat.new 1 1 [F64.nan]) (Mat.new 1 1 [F64.nan]) = some false := by
  refine ⟨rfl, by decide, rfl⟩

/-- C5 (amended): on length-invariant matrices the code's equality never
panics and returns true iff the dimensions match and every element pair
compares equal under IEEE-754 `==` — which identifies `+0.0` with `-0.0`
and makes `NaN` unequal to everything, so it is not bit-for-bit and not
reflexive on NaN-containing matrices. -/
theorem C5_ieee_equality (a b : Mat F64) (hwa : a.Wf) (hwb : b.Wf) :
    (matEqF a b).isSome ∧
      (matEqF a b = some true ↔
        a.rows = b.rows ∧ a.cols = b.cols ∧
          List.Forall₂ (fun x y => F64.ieeeEq x y = true) a.data b.data) := by
  constructor
  · unfold matEqF matEqBy
    by_cases h : a.rows = b.rows ∧ a.cols = b.cols
    · rw [if_pos h]
      apply eqLoop_isSome F64.ieeeEq a.data b.data
      rw [hwa, hwb, h.1, h.2]
    · rw [if_neg h]
      rfl
  · exact matEqBy_some_true_iff F64.ieeeEq a b hwa hwb

/-- Witness for C5 at a 1×1 matrix equal to itself under IEEE `==`. -/
theorem C5_witness :
    (matEqF (Mat.new 1 1 [F64.num 3]) (Mat.new 1 1 [F64.num 3])).isSome ∧
      (matEqF (Mat.new 1 1 [F64.num 3]) (Mat.new 1 1 [F64.num 3]) = some true ↔
        (1 : ℕ) = 1 ∧ (1 : ℕ) = 1 ∧
          List.Forall₂ (fun x y => F64.ieeeEq x y = true) [F64.num 3] [F64.num 3]) :=
  C5_ieee_equality (Mat.new 1 1 [F64.num 3]) (Mat.new 1 1 [F64.num 3])
    (by decide) (by decide)

/-- C6 counterexample: `new(1, 2, [5.0])` does not fail although
`data.length = 1 ≠ 1*2`: it returns a (length-invariant-violating)
matrix. -/
theorem C6_counterexample :
    Mat.new 1 2 [F64.num 5] = { rows := 1, cols := 2, data := [F64.num 5] } ∧
      ¬ (Mat.new 1 2 [F64.num 5] : Mat F64).Wf :=
  ⟨rfl, by decide⟩

/-- C6 (amended): `new` performs no validation at all: for every `rows`,
`cols` and `data` it returns an owned matrix with exactly those fields,
even when `data.length ≠ rows * cols`. -/
theorem C6_new_unchecked {α : Type} (rows cols : ℕ) (data : List α) :
    (Mat.new rows cols data).rows = rows ∧ (Mat.new rows cols data).cols = cols ∧
      (Mat.new rows cols data).data = data :=
  ⟨rfl, rfl, rfl⟩

/-- C7 counterexample: on the length-invariant 2×3 matrix, `get(0, 5)` has
`col = 5 ≥ cols = 3` yet does NOT fail: the flat formula `0*3+5 = 5` is
still inside the buffer and aliases element `(1, 2)`; `set(0, 5, 99)`
likewise succeeds. -/
theorem C7_counterexample :
    (Mat.new 2 3 [10, 11, 12, 13, 14, 15] : Mat ℤ).Wf ∧
      (3 : ℕ) ≤ 5 ∧
      (Mat.new 2 3 [10, 11, 12, 13, 14, 15] : Mat ℤ).get? 0 5 = some 15 ∧
      (Mat.new 2 3 [10, 11, 12, 13, 14, 15] : Mat ℤ).set? 0 5 99
        = some (Mat.new 2 3 [10, 11, 12, 13, 14, 99]) :=
  ⟨by decide, by decide, rfl, rfl⟩

/-- C7 (amended): under the length invariant, `get`/`set` fail exactly
when the flat offset `row*cols+col` reaches `rows*cols` — in particular
always when `row ≥ rows`, but not necessarily when only `col ≥ cols`,
since the row-major formula can alias a later row's element — and an
in-range offset accesses exactly slot `row*cols+col` of the buffer. -/
theorem C7_get_set_bounds {α : Type} (m : Mat α) (v : α) (hw : m.Wf) (r c : ℕ) :
    (m.get? r c = none ↔ m.rows * m.cols ≤ r * m.cols + c) ∧
      (m.set? r c v = none ↔ m.rows * m.cols ≤ r * m.cols + c) ∧
      (m.rows ≤ r → m.get? r c = none) ∧
      (r * m.cols + c < m.rows * m.cols →
        m.get? r c = m.data[r * m.cols + c]? ∧
          m.set? r c v = some { m with data := m.data.set (r * m.cols + c) v }) := by
  refine ⟨?_, ?_, ?_, ?_⟩
  · unfold Mat.get?
    rw [List.getElem?_eq_none_iff, hw]
  · unfold Mat.set?
    constructor
    · intro h
      by_cases hc2 : r * m.cols + c < m.data.length
      · rw [if_pos hc2] at h
        exact absurd h (by simp)
      · rw [hw] at hc2
        exact Nat.not_lt.mp hc2
    · intro h
      rw [if_neg (by rw [hw]; exact Nat.not_lt.mpr h)]
  · intro hr
    unfold Mat.get?
    apply List.getElem?_eq_none
    rw [hw]
    calc m.rows * m.cols ≤ r * m.cols := Nat.mul_le_mul_right m.cols hr
      _ ≤ r * m.cols + c := Nat.le_add_right _ _
  · intro hlt
    refine ⟨rfl, ?_⟩
    unfold Mat.set?
    rw [if_pos (by rw [hw]; exact hlt)]
    rfl

/-- Witness for C7 at the in-range cell `(1, 2)` of the 2×3 matrix. -/
theorem C7_witness :
    ((Mat.new 2 3 [10, 11, 12, 13, 14, 15] : Mat ℤ).get? 1 2 = none ↔ 2 * 3 ≤ 1 * 3 + 2) ∧
      ((Mat.new 2 3 [10, 11, 12, 13, 14, 15] : Mat ℤ).set? 1 2 99 = none ↔
        2 * 3 ≤ 1 * 3 + 2) ∧
      ((2 : ℕ) ≤ 1 → (Mat.new 2 3 [10, 11, 12, 13, 14, 15] : Mat ℤ).get? 1 2 = none) ∧
      (1 * 3 + 2 < 2 * 3 →
        (Mat.new 2 3 [10, 11, 12, 13, 14, 15] : Mat ℤ).get? 1 2
            = [(10 : ℤ), 11, 12, 13, 14, 15][1 * 3 + 2]? ∧
          (Mat.new 2 3 [10, 11, 12, 13, 14, 15] : Mat ℤ).set? 1 2 99
            = some (Mat.new 2 3 ([10, 11, 12, 13, 14, 15].set (1 * 3 + 2) 99))) :=
  C7_get_set_bounds (Mat.new 2 3 [10, 11, 12, 13, 14, 15]) 99 (by decide) 1 2

/-- C8: with compatible inner dimensions and any degenerate operand
(`rows = 0` or `cols = 0`), both multipliers return, for every task
execution order, the well-formed pre-zeroed `a.rows × b.cols` result;
when `a.rows * b.cols = 0` the buffer is empty and zero tasks are
spawned. -/
theorem C8_zero_size {α : Type} (addf mulf : α → α → α) (z : α) (a b : Mat α)
    (hdim : a.cols = b.rows)
    (hdeg : a.rows = 0 ∨ a.cols = 0 ∨ b.rows = 0 ∨ b.cols = 0)
    (sched : List (ℕ × ℕ)) (hperm : sched.Perm (tasks a b)) :
    multiply addf mulf z a b = some (zeroMat z a.rows b.cols) ∧
      multiplyPar addf mulf z a b sched = some (zeroMat z a.rows b.cols) ∧
      (zeroMat z a.rows b.cols : Mat α).rows = a.rows ∧
      (zeroMat z a.rows b.cols : Mat α).cols = b.cols ∧
      (a.rows * b.cols = 0 →
        (zeroMat z a.rows b.cols : Mat α).data = [] ∧ tasks a b = []) := by
  have hpar : multiplyPar addf mulf z a b sched = some (zeroMat z a.rows b.cols) := by
    unfold multiplyPar
    rw [if_pos hdim, degenerate_runSched addf mulf z a b hdim hdeg hperm]
  refine ⟨?_, hpar, rfl, rfl, ?_⟩
  · rw [multiply_eq_runSched addf mulf z a b hdim,
      degenerate_runSched addf mulf z a b hdim hdeg (List.Perm.refl _)]
  · intro h0
    constructor
    · show List.replicate (a.rows * b.cols) z = []
      rw [h0]
      rfl
    · rcases Nat.mul_eq_zero.mp h0 with h | h
      · exact tasks_nil_left a b h
      · exact tasks_nil_right a b h

/-- Witness for C8: a 0×2 times 2×3 product. -/
theorem C8_witness :
    multiply (fun x y => x + y) (fun x y => x * y) (0 : ℤ)
      (Mat.new 0 2 []) (Mat.new 2 3 [1, 2, 3, 4, 5, 6]) = some (zeroMat 0 0 3) :=
  (C8_zero_size (fun x y => x + y) (fun x y => x * y) (0 : ℤ)
    (Mat.new 0 2 []) (Mat.new 2 3 [1, 2, 3, 4, 5, 6]) rfl (Or.inl rfl) []
    (by decide)).1

/-- C9 counterexample: the identity law fails as stated for arbitrary
square matrices: with `M = [[NaN]]`, `multiply(I, M)` computes
`0.0 + 1.0 * NaN = NaN` and `[[NaN]] == [[NaN]]` is false under `f64`
equality. -/
theorem C9_counterexample :
    multiply (F64.addF F64.num) (F64.mulF F64.num) F64.pzero (identM 1)
        (Mat.new 1 1 [F64.nan]) = some (Mat.new 1 1 [F64.nan]) ∧
      matEqF (Mat.new 1 1 [F64.nan]) (Mat.new 1 1 [F64.nan]) = some false :=
  ⟨rfl, rfl⟩

/-- C9 (amended): for every square matrix of finite (non-NaN,
non-infinite) representable doubles, `multiply(I, M) == M` and
`multiply(M, I) == M` under the code's equality, for any IEEE rounding
function (all operations performed are exact). -/
theorem C9_identity_law (n : ℕ) (M : Mat F64) (rnd : ℚ → F64)
    (hrnd : ∀ q, F64.Representable q → rnd q = F64.num q)
    (hw : M.Wf) (hr : M.rows = n) (hc : M.cols = n)
    (hfin : ∀ y ∈ M.data, F64.FiniteRepr y) :
    (∃ res, multiply (F64.addF rnd) (F64.mulF rnd) F64.pzero (identM n) M = some res ∧
        matEqF res M = some true) ∧
      (∃ res, multiply (F64.addF rnd) (F64.mulF rnd) F64.pzero M (identM n) = some res ∧
        matEqF res M = some true) :=
  ⟨identity_mul_left n M rnd hrnd hw hr hc hfin,
    identity_mul_right n M rnd hrnd hw hr hc hfin⟩

/-- Witness for C9 at `M = [[5.0]]` with the exact rounding function. -/
theorem C9_witness :
    (∃ res, multiply (F64.addF F64.num) (F64.mulF F64.num) F64.pzero (identM 1)
        (Mat.new 1 1 [F64.num 5]) = some res ∧
        matEqF res (Mat.new 1 1 [F64.num 5]) = some true) ∧
      (∃ res, multiply (F64.addF F64.num) (F64.mulF F64.num) F64.pzero
        (Mat.new 1 1 [F64.num 5]) (identM 1) = some res ∧
        matEqF res (Mat.new 1 1 [F64.num 5]) = some true) :=
  C9_identity_law 1 (Mat.new 1 1 [F64.num 5]) F64.num (fun _ _ => rfl)
    (by decide) rfl rfl
    (by
      intro y hy
      have hy5 : y = F64.num 5 := by
        simpa [Mat.new] using hy
      subst hy5
      exact ⟨by norm_num, 5, 0, by norm_num, by decide, by decide, by decide⟩)

/-- C10: splitting any line on a single space yields at least one token,
so the zero-token skip branch of `from_string` is unreachable, and any
input whose lines include a blank line fails to parse (the blank line's
single empty token either breaks the fixed column count or fails float
parsing — Rust rejects `""` as a float, the `parseNum [] = none`
hypothesis). -/
theorem C10_blank_line_fails {α : Type} (parseNum : List Char → Option α)
    (hp : parseNum [] = none) (s : List Char) (hmem : [] ∈ rustLines s) :
    (∀ l : List Char, 1 ≤ (splitOnChar ' ' l).length) ∧
      fromString parseNum s = none :=
  ⟨splitOnChar_length_pos ' ', fromString_blank_line parseNum hp s hmem⟩

/-- Witness for C10 on the input `"1\n\n2"`. -/
theorem C10_witness :
    (∀ l : List Char, 1 ≤ (splitOnChar ' ' l).length) ∧
      fromString (fun t => if t = [] then none else some (F64.num 1))
        ['1', '\n', '\n', '2'] = none :=
  C10_blank_line_fails (fun t => if t = [] then none else some (F64.num 1)) rfl
    ['1', '\n', '\n', '2'] (by decide)
